import Mathlib

/-!
Verification of the deck-optimization core of the fantasy deck builder.

The JavaScript source is shallowly embedded below.  JavaScript numbers are
modelled as rationals (ℚ), stars and star targets as integers, and card
identifiers as `Option Nat` (`none` models an absent / falsy `cardId`).
`Array.prototype.sort` is mandated stable by the JS specification, so each
sort-by-comparator in the source is modelled by a stable insertion sort with
the comparator's ordering.  The memoization table of the DP search caches a
pure function and is semantics-preserving, so the embedding recomputes instead
of caching; likewise the score / sorted-card caches of `findBestDeck` are a
fast path for identical inputs and are not modelled.
-/

namespace FantasyDeck

/-- A card as scraped from the page: identity, lookup keys and star cost.
An empty string models a falsy (missing) key field. -/
structure RawCard where
  cardId : Option Nat
  heroKey : String
  handle : String
  name : String
  stars : Int
deriving DecidableEq

/-- A scored card, as produced by the scoring map in `findBestDeck`. -/
structure Card extends RawCard where
  expectedScore : ℚ
  expectedScorePerStar : ℚ
deriving DecidableEq

/-- Optimization configuration (algorithm id, per-key overrides, targets). -/
structure Config where
  algorithm : String
  scoreOverrides : List (String × ℚ)
  targetStars : Option Int
  cardCount : Option Nat

/- ### Score estimator (source: `averageScore` … `exponentialSmoothing`) -/

/-- `toUpperCase()`, modelled character-wise (same map as `String.toUpper`,
stated on the character list so that it evaluates). -/
def upper (s : String) : String := String.mk (s.data.map Char.toUpper)


/-- `averageScore(scores)`: plain mean, 0 on an empty list. -/
def averageScore (scores : List ℚ) : ℚ :=
  if scores.length = 0 then 0 else scores.sum / (scores.length : ℚ)

/-- `averageExcludingOutliers(scores, numToExclude)`: if the list is short,
plain mean; otherwise sort ascending and drop `floor(n/2)` from the low end
and the remainder of `n` from the high end, then mean of the rest
(`sorted.slice(toRemoveEachEnd, sorted.length - (numToExclude - toRemoveEachEnd))`). -/
def averageExcludingOutliers (scores : List ℚ) (numToExclude : Nat) : ℚ :=
  if scores.length ≤ numToExclude then averageScore scores
  else
    averageScore (((List.insertionSort (· ≤ ·) scores).take
      (scores.length - (numToExclude - numToExclude / 2))).drop (numToExclude / 2))

/-- `weightedScore(scores)`: fixed weights on the first `min(length, 5)`
observations, normalized by the total applied weight. -/
def weightedScore (scores : List ℚ) : ℚ :=
  if scores.length = 0 then 0
  else
    let weights : List ℚ := [3/10, 2/10, 175/1000, 15/100, 125/1000, 5/100]
    let n := min scores.length 5
    (((List.range n).map (fun i => scores.getD i 0 * weights.getD i 0)).sum) /
      (((List.range n).map (fun i => weights.getD i 0)).sum)

/-- `consistencyFloor(scores)`: `Math.min(...scores)`, 0 on empty input. -/
def consistencyFloor : List ℚ → ℚ
  | [] => 0
  | x :: rest => rest.foldl min x

/-- `consistencyMedian(scores)`: median of the sorted list (mean of the two
middle values on an even count), 0 on empty input. -/
def consistencyMedian (scores : List ℚ) : ℚ :=
  if scores.length = 0 then 0
  else
    let sorted := List.insertionSort (· ≤ ·) scores
    let mid := sorted.length / 2
    if sorted.length % 2 = 0 then (sorted.getD (mid - 1) 0 + sorted.getD mid 0) / 2
    else sorted.getD mid 0

/-- `exponentialSmoothing(scores, alpha)`: start from `scores[0]` and fold
`S = alpha * X + (1 - alpha) * S` over the remaining entries in list order. -/
def exponentialSmoothing (scores : List ℚ) (alpha : ℚ) : ℚ :=
  match scores with
  | [] => 0
  | x :: rest => rest.foldl (fun smoothed v => alpha * v + (1 - alpha) * smoothed) x

/-- `calculateScore(name, algorithm)`: look the (uppercased) name up in the
historical series map and dispatch on the algorithm id; an unknown id behaves
as `exponentialSmoothing` with alpha 0.3. -/
def calculateScore (historicalData : List (String × List ℚ)) (name : String)
    (algorithm : String) : ℚ :=
  match historicalData.lookup (upper name) with
  | none => 0
  | some historicalScores =>
    if historicalScores.length = 0 then 0
    else
      match algorithm with
      | "recent6weeks" => averageScore (historicalScores.take 6)
      | "recent4weeks" => averageScore (historicalScores.take 4)
      | "recent6exclude1" => averageExcludingOutliers (historicalScores.take 6) 1
      | "recent4exclude1" => averageExcludingOutliers (historicalScores.take 4) 1
      | "weighted" => weightedScore historicalScores
      | "consistencyFloor" => consistencyFloor (historicalScores.take 6)
      | "consistencyMedian" => consistencyMedian (historicalScores.take 6)
      | _ => exponentialSmoothing historicalScores (3/10)

/- ### Per-card scoring inside `findBestDeck` -/

/-- `(card.heroKey || card.handle || card.name).toUpperCase()`. -/
def lookupKey (card : RawCard) : String :=
  upper (if card.heroKey ≠ "" then card.heroKey
   else if card.handle ≠ "" then card.handle
   else card.name)

/-- The expected score `findBestDeck` assigns to a card: the override when the
configuration has one for the card's lookup key (zeroed for `0XMAKESY` at any
cost other than 1), otherwise the computed historical score. -/
def effectiveScore (config : Config) (hist : List (String × List ℚ))
    (card : RawCard) : ℚ :=
  match config.scoreOverrides.lookup (lookupKey card) with
  | some overrideScore =>
    if lookupKey card = "0XMAKESY" ∧ card.stars ≠ 1 then 0 else overrideScore
  | none => calculateScore hist (lookupKey card) config.algorithm

/-- One step of the scoring `map` in `findBestDeck`: overridden cards are
always kept; otherwise a card with falsy `stars` maps to `null`. -/
def scoreEntry (config : Config) (hist : List (String × List ℚ))
    (card : RawCard) : Option Card :=
  match config.scoreOverrides.lookup (lookupKey card) with
  | some _ =>
    some ⟨card, effectiveScore config hist card,
      if 0 < card.stars then effectiveScore config hist card / (card.stars : ℚ) else 0⟩
  | none =>
    if card.stars = 0 then none
    else
      some ⟨card, effectiveScore config hist card,
        effectiveScore config hist card / (card.stars : ℚ)⟩

/- ### The DP solver (`findOptimalCombination` and its inner `solve`) -/

/-- Result of the inner DP `solve`: a selection and its total expected score. -/
structure DPResult where
  selection : List Card
  totalScore : ℚ
deriving DecidableEq

/-- Total star cost of a selection. -/
def starsSum (l : List Card) : Int := (l.map (fun c => c.stars)).sum

/-- Total expected score of a selection. -/
def scoreSum (l : List Card) : ℚ := (l.map (fun c => c.expectedScore)).sum

/-- `cards.slice(i).map(c => c.stars).sort((a, b) => a - b)`: the ascending
star list the feasibility pruning is computed from. -/
def sortedStars (cards : List Card) : List Int :=
  List.insertionSort (· ≤ ·) (cards.map (fun c => c.stars))

/-- The include branch: prepend the card and add its score. -/
def dpInclude (c : Card) : Option DPResult → Option DPResult
  | some sub => some ⟨c :: sub.selection, c.expectedScore + sub.totalScore⟩
  | none => none

/-- Combine include and skip branches; skip only replaces include on a
strictly higher total score. -/
def dpCombine : Option DPResult → Option DPResult → Option DPResult
  | none, skip => skip
  | some best, none => some best
  | some best, some skip =>
    if best.totalScore < skip.totalScore then some skip else some best

/-- The feasibility pruning of `solve`: infeasible when fewer than
`remainingCards` candidates remain or `remainingStars` falls outside the
possible range of suffix star sums. -/
def infeasible (cards : List Card) (s : Int) (k : Nat) : Bool :=
  decide (cards.length < k) ||
  decide (s < ((sortedStars cards).take k).sum) ||
  decide ((((sortedStars cards).drop ((sortedStars cards).length - k)).sum) < s)

/-- The recursive DP of `findOptimalCombination`.  The state is the candidate
suffix, the remaining star budget and the remaining card count; the include
branch requires the card cost to fit and a truthy `cardId`.  The source
memoizes this pure function; the embedding recomputes. -/
def solve : List Card → Int → Nat → Option DPResult
  | _, s, 0 => if s = 0 then some ⟨[], 0⟩ else none
  | [], _, _ + 1 => none
  | c :: rest, s, k + 1 =>
    if s < 0 then none
    else if infeasible (c :: rest) s (k + 1) then none
    else
      dpCombine
        (if c.stars ≤ s ∧ c.cardId.isSome then
          dpInclude c (solve rest (s - c.stars) k)
        else none)
        (solve rest s (k + 1))

/-- The relaxation loop of `findOptimalCombination`: retry at target − 1 and
target − 2, stopping as soon as the adjusted target would be negative, and
accept the first feasible solution. -/
def relaxedSolve (cards : List Card) (targetStars : Int) (targetCount : Nat) :
    Option (List Card) :=
  if targetStars - 1 < 0 then none
  else
    match solve cards (targetStars - 1) targetCount with
    | some r => some r.selection
    | none =>
      if targetStars - 2 < 0 then none
      else
        match solve cards (targetStars - 2) targetCount with
        | some r => some r.selection
        | none => none

/-- The hard ceiling check: a DP result whose realized star total exceeds the
original target is rejected outright. -/
def hardCeiling (targetStars : Int) : Option (List Card) → Option (List Card)
  | some sel => if targetStars < starsSum sel then none else some sel
  | none => none

/- ### The greedy fallback (`findClosestCombination`) -/

/-- Accumulator of the inner candidate scan of the greedy fallback
(`bestCard` / `bestScore` / `bestStarDiff`; `none` models `Infinity`). -/
structure PickState where
  bestCard : Option Card
  bestScore : ℚ
  bestStarDiff : Option Int
deriving DecidableEq

/-- `cardsRemaining === 0 ? Math.abs(targetStars - newTotal) : 0`. -/
def pickStarDiff (totalStars targetStars : Int) (lastSlot : Bool) (card : Card) : Int :=
  if lastSlot then |targetStars - (totalStars + card.stars)| else 0

/-- One candidate of the inner scan: skip used ids and over-budget picks,
otherwise keep the strictly better score, or on equal score the smaller final
star distance. -/
def pickStep (used : List Nat) (totalStars targetStars : Int) (lastSlot : Bool)
    (acc : PickState) (card : Card) : PickState :=
  if card.cardId.any (fun id => decide (id ∈ used)) then acc
  else if targetStars < totalStars + card.stars then acc
  else
    if acc.bestScore < card.expectedScore ∨
        (card.expectedScore = acc.bestScore ∧
          acc.bestStarDiff.all
            (fun d => decide (pickStarDiff totalStars targetStars lastSlot card < d))) then
      ⟨some card, card.expectedScore, some (pickStarDiff totalStars targetStars lastSlot card)⟩
    else acc

/-- The inner loop over the first `min(length, 120)` candidates, starting from
`bestScore = -1` and an infinite `bestStarDiff`. -/
def greedyPick (cards : List Card) (used : List Nat) (totalStars targetStars : Int)
    (lastSlot : Bool) : Option Card :=
  ((cards.take 120).foldl (pickStep used totalStars targetStars lastSlot)
    ⟨none, -1, none⟩).bestCard

/-- The slot loop of `findClosestCombination`; a slot with no eligible pick
breaks out, and a partial selection is then discarded by the length check. -/
def greedyGo (cards : List Card) (targetStars : Int) :
    Nat → List Card → Int → List Nat → Option (List Card)
  | 0, selected, _, _ => some selected
  | k + 1, selected, tot, used =>
    match greedyPick cards used tot targetStars (k == 0) with
    | some c =>
      greedyGo cards targetStars k (selected ++ [c]) (tot + c.stars)
        (match c.cardId with | some id => id :: used | none => used)
    | none => none

/-- `findClosestCombination(cards, targetStars, targetCount)`. -/
def findClosestCombination (cards : List Card) (targetStars : Int)
    (targetCount : Nat) : Option (List Card) :=
  greedyGo cards targetStars targetCount [] 0 []

/-- `findOptimalCombination(cards, targetStars, targetCount)`: exact DP, then
relaxation, then the hard ceiling check, then the greedy fallback. -/
def findOptimalCombination (cards : List Card) (targetStars : Int)
    (targetCount : Nat) : Option (List Card) :=
  let dpResult :=
    match (solve cards targetStars targetCount).map DPResult.selection with
    | some sel => some sel
    | none => relaxedSolve cards targetStars targetCount
  match hardCeiling targetStars dpResult with
  | some sel => some sel
  | none => findClosestCombination cards targetStars targetCount

/- ### Ranking, pruning and `findBestDeck` -/

/-- The comparator ordering of `sort((a, b) => b.expectedScorePerStar - a.expectedScorePerStar)`. -/
def cardGE (a b : Card) : Prop := b.expectedScorePerStar ≤ a.expectedScorePerStar

instance : DecidableRel cardGE :=
  fun a b => inferInstanceAs (Decidable (b.expectedScorePerStar ≤ a.expectedScorePerStar))

instance : IsTotal Card cardGE :=
  ⟨fun a b => le_total b.expectedScorePerStar a.expectedScorePerStar⟩

instance : IsTrans Card cardGE :=
  ⟨fun _ _ _ h1 h2 => le_trans h2 h1⟩

/-- The distinct star values of the pool in first-appearance order: the key
order of the insertion-ordered `Map` used for bucketing. -/
def bucketKeys (cards : List Card) : List Int :=
  cards.foldl (fun keys c => if c.stars ∈ keys then keys else keys ++ [c.stars]) []

/-- Bucket the pool by star cost, keep the first `cap` per bucket and merge
the buckets back in key order (the `Map` iteration of the source). -/
def bucketMerge (cards : List Card) (cap : Nat) : List Card :=
  ((bucketKeys cards).map
    (fun s => (cards.filter (fun c => c.stars == s)).take cap)).flatten

/-- The rank-and-prune step of `findBestDeck`: bucket by star cost, keep the
first `cap` per bucket, merge in bucket order and re-sort descending by
expected score per star (stable). -/
def pruneByBucket (cards : List Card) (cap : Nat) : List Card :=
  List.insertionSort cardGE (bucketMerge cards cap)

/-- `config.targetStars || 19`. -/
def effTargetStars (config : Config) : Int :=
  match config.targetStars with
  | none => 19
  | some t => if t = 0 then 19 else t

/-- `config.cardCount || 5`. -/
def effCardCount (config : Config) : Nat :=
  match config.cardCount with
  | none => 5
  | some k => if k = 0 then 5 else k

/-- The scored-and-filtered pool of `findBestDeck`: score every card, drop the
`null` entries, keep cards with a non-negative expected score and positive stars. -/
def scoredCards (cards : List RawCard) (hist : List (String × List ℚ))
    (config : Config) : List Card :=
  ((cards.map (scoreEntry config hist)).reduceOption).filter
    (fun c => decide (0 ≤ c.expectedScore) && decide (0 < c.stars))

/-- The candidate list handed to the solver: the scored pool sorted descending
by expected score per star, pruned to the top 5 per star bucket. -/
def deckCandidates (cards : List RawCard) (hist : List (String × List ℚ))
    (config : Config) : List Card :=
  pruneByBucket (List.insertionSort cardGE (scoredCards cards hist config)) 5

/-- `findBestDeck(config)` on a given card pool and historical data: `null`
when no card has a valid score, otherwise the DP search over the pruned
candidates. -/
def findBestDeck (cards : List RawCard) (hist : List (String × List ℚ))
    (config : Config) : Option (List Card) :=
  if (scoredCards cards hist config).length = 0 then none
  else
    findOptimalCombination (deckCandidates cards hist config)
      (effTargetStars config) (effCardCount config)

/- ### Derived notions used by the statements -/

/-- The series that is 1 at observation `i` and 0 elsewhere. -/
def basis (n i : Nat) : List ℚ := (List.range n).map (fun j => if j = i then 1 else 0)

/-- The coefficient of observation `i` in the smoothed value of a series of
length `n` (alpha 0.3), read off by evaluating the program on a basis series. -/
def smoothCoeff (n i : Nat) : ℚ := exponentialSmoothing (basis n i) (3/10)

/- ### Concrete cards used by witnesses and counterexamples -/

/-- A candidate with no `cardId` and a high score (cost 1). -/
def cardNoId : Card := ⟨⟨none, "", "", "A", 1⟩, 10, 10⟩

/-- A candidate with a `cardId` and a lower score (cost 1). -/
def cardB : Card := ⟨⟨some 1, "", "", "B", 1⟩, 5, 5⟩

/-- A single candidate of cost 2 with a `cardId`. -/
def cardX : Card := ⟨⟨some 1, "", "", "X", 2⟩, 5, 5/2⟩

/-- A candidate with no `cardId`, used to exhibit greedy duplication. -/
def cardDup : Card := ⟨⟨none, "", "", "D", 1⟩, 5, 5⟩

/-- A configuration with an override for the special key. -/
def cfgMakesy : Config := ⟨"exponentialSmoothing", [("0XMAKESY", 300)], none, none⟩

/-- A two-star card whose lookup key is the special 0XMAKESY key. -/
def rawMakesy : RawCard := ⟨some 2, "0xMakesy", "", "", 2⟩

/-- A malformed raw card (non-positive cost). -/
def rawBad : RawCard := ⟨some 9, "", "", "Z", -1⟩

/-- An override-free configuration. -/
def cfgPlain : Config := ⟨"exponentialSmoothing", [], none, none⟩

/-- A 1-star card with efficiency 9. -/
def cardP : Card := ⟨⟨some 4, "", "", "P", 1⟩, 9, 9⟩

/-- A 2-star card with efficiency 5. -/
def cardU : Card := ⟨⟨some 5, "", "", "U", 2⟩, 10, 5⟩

/-- A 1-star card with efficiency 5 (tied with `cardU`). -/
def cardV : Card := ⟨⟨some 6, "", "", "V", 1⟩, 5, 5⟩

/- ### Basic lemmas about selections -/

@[simp] theorem starsSum_nil : starsSum [] = 0 := rfl

@[simp] theorem starsSum_cons (c : Card) (l : List Card) :
    starsSum (c :: l) = c.stars + starsSum l := by
  simp [starsSum]

@[simp] theorem starsSum_append (l₁ l₂ : List Card) :
    starsSum (l₁ ++ l₂) = starsSum l₁ + starsSum l₂ := by
  simp [starsSum]

@[simp] theorem scoreSum_nil : scoreSum [] = 0 := rfl

@[simp] theorem scoreSum_cons (c : Card) (l : List Card) :
    scoreSum (c :: l) = c.expectedScore + scoreSum l := by
  simp [scoreSum]

theorem starsSum_nonneg {l : List Card} (h : ∀ c ∈ l, 0 ≤ c.stars) :
    0 ≤ starsSum l := by
  induction l with
  | nil => simp
  | cons c l ih =>
    have h1 := h c (by simp)
    have h2 := ih (fun x hx => h x (List.mem_cons_of_mem _ hx))
    simp only [starsSum_cons]
    omega

/- ### Soundness of the DP search -/

theorem dpCombine_eq_some {inc skip : Option DPResult} {r : DPResult}
    (h : dpCombine inc skip = some r) : inc = some r ∨ skip = some r := by
  cases inc with
  | none => exact Or.inr h
  | some b =>
    cases skip with
    | none => exact Or.inl h
    | some s2 =>
      simp only [dpCombine] at h
      split at h
      · exact Or.inr h
      · exact Or.inl h

theorem dpCombine_left_le (b : DPResult) (skip : Option DPResult) :
    ∃ r, dpCombine (some b) skip = some r ∧ b.totalScore ≤ r.totalScore := by
  cases skip with
  | none => exact ⟨b, rfl, le_refl _⟩
  | some s2 =>
    simp only [dpCombine]
    split
    case isTrue h => exact ⟨s2, rfl, le_of_lt h⟩
    case isFalse h => exact ⟨b, rfl, le_refl _⟩

theorem dpCombine_right_le (s2 : DPResult) (inc : Option DPResult) :
    ∃ r, dpCombine inc (some s2) = some r ∧ s2.totalScore ≤ r.totalScore := by
  cases inc with
  | none => exact ⟨s2, rfl, le_refl _⟩
  | some b =>
    simp only [dpCombine]
    split
    case isTrue h => exact ⟨s2, rfl, le_refl _⟩
    case isFalse h => exact ⟨b, rfl, not_lt.mp h⟩

theorem solve_zero (cards : List Card) (s : Int) :
    solve cards s 0 = if s = 0 then some ⟨[], 0⟩ else none := by
  cases cards <;> rfl

theorem solve_nil_succ (s : Int) (k : Nat) : solve [] s (k + 1) = none := rfl

theorem solve_cons_succ (c : Card) (rest : List Card) (s : Int) (k : Nat) :
    solve (c :: rest) s (k + 1) =
      if s < 0 then none
      else if infeasible (c :: rest) s (k + 1) then none
      else
        dpCombine
          (if c.stars ≤ s ∧ c.cardId.isSome then
            dpInclude c (solve rest (s - c.stars) k)
          else none)
          (solve rest s (k + 1)) := rfl

theorem solve_sound :
    ∀ (cards : List Card) (s : Int) (k : Nat) (r : DPResult),
      solve cards s k = some r →
      r.selection.Sublist cards ∧ r.selection.length = k ∧
        starsSum r.selection = s ∧ scoreSum r.selection = r.totalScore ∧
        ∀ c ∈ r.selection, c.cardId.isSome = true := by
  intro cards
  induction cards with
  | nil =>
    intro s k r h
    match k with
    | 0 =>
      rw [solve_zero] at h
      split at h
      case isTrue hs =>
        cases h
        subst hs
        exact ⟨List.Sublist.refl _, rfl, rfl, rfl, by simp⟩
      case isFalse => exact absurd h (by simp)
    | k + 1 => exact absurd h (by simp [solve_nil_succ])
  | cons c rest ih =>
    intro s k r h
    match k with
    | 0 =>
      rw [solve_zero] at h
      split at h
      case isTrue hs =>
        cases h
        subst hs
        exact ⟨List.nil_sublist _, rfl, rfl, rfl, by simp⟩
      case isFalse => exact absurd h (by simp)
    | k + 1 =>
      rw [solve_cons_succ] at h
      split at h
      case isTrue => exact absurd h (by simp)
      case isFalse =>
        split at h
        case isTrue => exact absurd h (by simp)
        case isFalse =>
          rcases dpCombine_eq_some h with hinc | hskip
          · split at hinc
            case isTrue hcond =>
              cases hrec : solve rest (s - c.stars) k with
              | none => rw [hrec] at hinc; exact absurd hinc (by simp [dpInclude])
              | some sub =>
                rw [hrec] at hinc
                unfold dpInclude at hinc
                cases hinc
                obtain ⟨h1, h2, h3, h4, h5⟩ := ih (s - c.stars) k sub hrec
                refine ⟨h1.cons₂ _, by simp [h2], ?_, ?_, ?_⟩
                · simp only [starsSum_cons, h3]; omega
                · simp [h4]
                · intro x hx
                  rcases List.mem_cons.mp hx with rfl | hx'
                  · exact hcond.2
                  · exact h5 x hx'
            case isFalse => exact absurd hinc (by simp)
          · obtain ⟨h1, h2, h3, h4, h5⟩ := ih s (k + 1) r hskip
            exact ⟨h1.cons _, h2, h3, h4, h5⟩

/- ### The feasibility pruning never cuts a valid selection -/

theorem take_sum_le_of_sublist_sorted :
    ∀ (s : List Int), s.Sorted (· ≤ ·) → ∀ u : List Int, u.Sublist s →
      (s.take u.length).sum ≤ u.sum := by
  intro s
  induction s with
  | nil =>
    intro _ u hu
    rw [List.sublist_nil.mp hu]
    simp
  | cons a s ih =>
    intro hs u hu
    rcases List.sublist_cons_iff.mp hu with hu' | ⟨u', rfl, hu'⟩
    · match u with
      | [] => simp
      | b :: u'' =>
        have hb : b ∈ s := hu'.subset (by simp)
        have hab : a ≤ b := List.rel_of_sorted_cons hs b hb
        have h2 : (s.take u''.length).sum ≤ u''.sum :=
          ih hs.of_cons u'' ((List.sublist_cons_self b u'').trans hu')
        simp only [List.length_cons, List.take_succ_cons, List.sum_cons]
        exact add_le_add hab h2
    · simp only [List.length_cons, List.take_succ_cons, List.sum_cons]
      exact add_le_add_left (ih hs.of_cons u' hu') a

theorem sum_le_take_sum_of_sublist_sorted_ge :
    ∀ (s : List Int), s.Sorted (fun a b => b ≤ a) → ∀ u : List Int, u.Sublist s →
      u.sum ≤ (s.take u.length).sum := by
  intro s
  induction s with
  | nil =>
    intro _ u hu
    rw [List.sublist_nil.mp hu]
    simp
  | cons a s ih =>
    intro hs u hu
    rcases List.sublist_cons_iff.mp hu with hu' | ⟨u', rfl, hu'⟩
    · match u with
      | [] => simp
      | b :: u'' =>
        have hb : b ∈ s := hu'.subset (by simp)
        have hab : b ≤ a := List.rel_of_sorted_cons hs b hb
        have h2 : u''.sum ≤ (s.take u''.length).sum :=
          ih hs.of_cons u'' ((List.sublist_cons_self b u'').trans hu')
        simp only [List.length_cons, List.take_succ_cons, List.sum_cons]
        exact add_le_add hab h2
    · simp only [List.length_cons, List.take_succ_cons, List.sum_cons]
      exact add_le_add_left (ih hs.of_cons u' hu') a

theorem sum_le_drop_sum_of_sublist_sorted (s : List Int) (hs : s.Sorted (· ≤ ·))
    (u : List Int) (hu : u.Sublist s) :
    u.sum ≤ (s.drop (s.length - u.length)).sum := by
  have h1 : u.reverse.Sublist s.reverse := hu.reverse
  have hsrev : s.reverse.Sorted (fun a b => b ≤ a) := List.pairwise_reverse.mpr hs
  have h2 := sum_le_take_sum_of_sublist_sorted_ge s.reverse hsrev u.reverse h1
  rwa [List.sum_reverse, List.length_reverse, List.take_reverse, List.sum_reverse] at h2

theorem infeasible_false_of_sublist {cards sub : List Card}
    (hsub : sub.Sublist cards) :
    infeasible cards (starsSum sub) sub.length = false := by
  have hlen : sub.length ≤ cards.length := hsub.length_le
  have hsorted : (sortedStars cards).Sorted (· ≤ ·) := List.sorted_insertionSort _ _
  have hperm : (sortedStars cards).Perm (cards.map (fun c => c.stars)) :=
    List.perm_insertionSort _ _
  have husub : (sub.map (fun c => c.stars)).Sublist (cards.map (fun c => c.stars)) :=
    hsub.map _
  have hu₀perm : (List.insertionSort (· ≤ ·) (sub.map (fun c => c.stars))).Perm
      (sub.map (fun c => c.stars)) := List.perm_insertionSort _ _
  have hu₀sorted : (List.insertionSort (· ≤ ·) (sub.map (fun c => c.stars))).Sorted (· ≤ ·) :=
    List.sorted_insertionSort _ _
  have hsubperm : (List.insertionSort (· ≤ ·) (sub.map (fun c => c.stars))).Subperm
      (sortedStars cards) :=
    (hu₀perm.subperm.trans husub.subperm).trans hperm.symm.subperm
  have hu₀sl : (List.insertionSort (· ≤ ·) (sub.map (fun c => c.stars))).Sublist
      (sortedStars cards) :=
    List.sublist_of_subperm_of_sorted hsubperm hu₀sorted hsorted
  have hlen₀ : (List.insertionSort (· ≤ ·) (sub.map (fun c => c.stars))).length = sub.length := by
    rw [hu₀perm.length_eq, List.length_map]
  have hsum₀ : (List.insertionSort (· ≤ ·) (sub.map (fun c => c.stars))).sum = starsSum sub :=
    hu₀perm.sum_eq
  have hmin : ((sortedStars cards).take sub.length).sum ≤ starsSum sub := by
    have h := take_sum_le_of_sublist_sorted _ hsorted _ hu₀sl
    rwa [hlen₀, hsum₀] at h
  have hmax : starsSum sub ≤
      ((sortedStars cards).drop ((sortedStars cards).length - sub.length)).sum := by
    have h := sum_le_drop_sum_of_sublist_sorted _ hsorted _ hu₀sl
    rwa [hlen₀, hsum₀] at h
  have hlen2 : sub.length ≤ (sortedStars cards).length := by
    rw [hperm.length_eq, List.length_map]
    exact hlen
  simp only [infeasible, Bool.or_eq_false_iff, decide_eq_false_iff_not, not_lt]
  refine ⟨⟨?_, hmin⟩, hmax⟩
  exact le_trans hlen (le_of_eq rfl)

theorem solve_complete :
    ∀ (cards sub : List Card) (s : Int) (k : Nat),
      (∀ c ∈ cards, 0 ≤ c.stars) →
      sub.Sublist cards → sub.length = k → starsSum sub = s →
      (∀ c ∈ sub, c.cardId.isSome = true) →
      ∃ r, solve cards s k = some r ∧ scoreSum sub ≤ r.totalScore := by
  intro cards
  induction cards with
  | nil =>
    intro sub s k _ hsub hlen hsum _
    have hnil : sub = [] := List.sublist_nil.mp hsub
    subst hnil
    simp only [List.length_nil] at hlen
    simp only [starsSum_nil] at hsum
    subst hlen
    subst hsum
    exact ⟨⟨[], 0⟩, by rw [solve_zero]; simp, by simp⟩
  | cons c rest ih =>
    intro sub s k hpos hsub hlen hsum hid
    match k with
    | 0 =>
      have hnil : sub = [] := List.length_eq_zero.mp hlen
      subst hnil
      simp only [starsSum_nil] at hsum
      subst hsum
      exact ⟨⟨[], 0⟩, by rw [solve_zero]; simp, by simp⟩
    | k + 1 =>
      have hs0 : 0 ≤ s := by
        subst hsum
        exact starsSum_nonneg (fun x hx => hpos x (hsub.subset hx))
      have hinf : infeasible (c :: rest) s (k + 1) = false := by
        have h := infeasible_false_of_sublist hsub
        rwa [hlen, hsum] at h
      rw [solve_cons_succ, if_neg (not_lt.mpr hs0), hinf]
      simp only [Bool.false_eq_true, if_false]
      rcases List.sublist_cons_iff.mp hsub with hsub' | ⟨sub', rfl, hsub'⟩
      · obtain ⟨rsk, hrsk, hle⟩ :=
          ih sub s (k + 1) (fun x hx => hpos x (List.mem_cons_of_mem _ hx)) hsub' hlen hsum hid
        rw [hrsk]
        obtain ⟨r, hr, hler⟩ := dpCombine_right_le rsk _
        exact ⟨r, hr, le_trans hle hler⟩
      · have hpos' : ∀ x ∈ rest, 0 ≤ x.stars := fun x hx => hpos x (List.mem_cons_of_mem _ hx)
        have hnn : 0 ≤ starsSum sub' :=
          starsSum_nonneg (fun x hx => hpos' x (hsub'.subset hx))
        have hstars : c.stars ≤ s := by
          simp only [starsSum_cons] at hsum
          omega
        have hidc : c.cardId.isSome = true := hid c (List.mem_cons_self _ _)
        have hlen' : sub'.length = k := by
          simp only [List.length_cons] at hlen
          omega
        have hsum' : starsSum sub' = s - c.stars := by
          simp only [starsSum_cons] at hsum
          omega
        obtain ⟨rs, hrs, hle⟩ := ih sub' (s - c.stars) k hpos' hsub' hlen' hsum'
          (fun x hx => hid x (List.mem_cons_of_mem _ hx))
        rw [if_pos ⟨hstars, hidc⟩, hrs]
        simp only [dpInclude]
        obtain ⟨r, hr, hler⟩ :=
          dpCombine_left_le ⟨c :: rs.selection, c.expectedScore + rs.totalScore⟩ (solve rest s (k + 1))
        refine ⟨r, hr, ?_⟩
        simp only [scoreSum_cons]
        have hstep : c.expectedScore + scoreSum sub' ≤ c.expectedScore + rs.totalScore := by
          linarith
        exact le_trans hstep hler

/- ### Properties of the greedy fallback -/

theorem greedyGo_zero (cards : List Card) (T : Int) (sel : List Card) (tot : Int)
    (used : List Nat) : greedyGo cards T 0 sel tot used = some sel := rfl

theorem greedyGo_succ (cards : List Card) (T : Int) (k : Nat) (sel : List Card)
    (tot : Int) (used : List Nat) :
    greedyGo cards T (k + 1) sel tot used =
      match greedyPick cards used tot T (k == 0) with
      | some c =>
        greedyGo cards T k (sel ++ [c]) (tot + c.stars)
          (match c.cardId with | some id => id :: used | none => used)
      | none => none := rfl

theorem pick_fold_spec (used : List Nat) (tot T : Int) (lastSlot : Bool) :
    ∀ (l : List Card) (acc : PickState) (x : Card),
      (l.foldl (pickStep used tot T lastSlot) acc).bestCard = some x →
      acc.bestCard = some x ∨
        (x ∈ l ∧ x.cardId.any (fun id => decide (id ∈ used)) = false ∧
          tot + x.stars ≤ T) := by
  intro l
  induction l with
  | nil => intro acc x h; exact Or.inl h
  | cons a l ih =>
    intro acc x h
    rcases ih (pickStep used tot T lastSlot acc a) x h with hstep | hmem
    · simp only [pickStep] at hstep
      split at hstep
      case isTrue => exact Or.inl hstep
      case isFalse hg1 =>
        split at hstep
        case isTrue => exact Or.inl hstep
        case isFalse hg2 =>
          split at hstep
          case isTrue =>
            have hx : some a = some x := hstep
            cases hx
            refine Or.inr ⟨List.mem_cons_self _ _, ?_, not_lt.mp hg2⟩
            exact Bool.eq_false_iff.mpr hg1
          case isFalse => exact Or.inl hstep
    · exact Or.inr ⟨List.mem_cons_of_mem _ hmem.1, hmem.2⟩

theorem greedyPick_spec {cards : List Card} {used : List Nat} {tot T : Int}
    {lastSlot : Bool} {c : Card}
    (h : greedyPick cards used tot T lastSlot = some c) :
    c ∈ cards ∧ c.cardId.any (fun id => decide (id ∈ used)) = false ∧
      tot + c.stars ≤ T := by
  unfold greedyPick at h
  rcases pick_fold_spec used tot T lastSlot (cards.take 120) ⟨none, -1, none⟩ c h with
    h0 | ⟨hm, hg, hb⟩
  · exact absurd h0 (by simp)
  · exact ⟨List.take_subset _ _ hm, hg, hb⟩

theorem greedyGo_length (cards : List Card) (T : Int) :
    ∀ (k : Nat) (sel : List Card) (tot : Int) (used : List Nat) (out : List Card),
      greedyGo cards T k sel tot used = some out → out.length = sel.length + k := by
  intro k
  induction k with
  | zero =>
    intro sel tot used out h
    rw [greedyGo_zero] at h
    cases h
    simp
  | succ k ih =>
    intro sel tot used out h
    rw [greedyGo_succ] at h
    cases hp : greedyPick cards used tot T (k == 0) with
    | none => rw [hp] at h; exact absurd h (by simp)
    | some c =>
      rw [hp] at h
      have hlen := ih (sel ++ [c]) (tot + c.stars) _ out h
      simp only [List.length_append, List.length_cons, List.length_nil] at hlen
      omega

theorem greedyGo_budget (cards : List Card) (T : Int) :
    ∀ (k : Nat) (sel : List Card) (tot : Int) (used : List Nat) (out : List Card),
      greedyGo cards T k sel tot used = some out → starsSum sel = tot → tot ≤ T →
      starsSum out ≤ T := by
  intro k
  induction k with
  | zero =>
    intro sel tot used out h hsum hle
    rw [greedyGo_zero] at h
    cases h
    omega
  | succ k ih =>
    intro sel tot used out h hsum hle
    rw [greedyGo_succ] at h
    cases hp : greedyPick cards used tot T (k == 0) with
    | none => rw [hp] at h; exact absurd h (by simp)
    | some c =>
      rw [hp] at h
      obtain ⟨_, _, hb⟩ := greedyPick_spec hp
      exact ih (sel ++ [c]) (tot + c.stars) _ out h (by simp [hsum]) hb

theorem greedyGo_nodup (cards : List Card) (T : Int)
    (hall : ∀ c ∈ cards, c.cardId.isSome = true) :
    ∀ (k : Nat) (sel : List Card) (tot : Int) (used : List Nat) (out : List Card),
      greedyGo cards T k sel tot used = some out →
      (sel.map (fun c => c.cardId)).Nodup →
      (∀ c ∈ sel, ∀ id, c.cardId = some id → id ∈ used) →
      (out.map (fun c => c.cardId)).Nodup := by
  intro k
  induction k with
  | zero =>
    intro sel tot used out h hnd _
    rw [greedyGo_zero] at h
    cases h
    exact hnd
  | succ k ih =>
    intro sel tot used out h hnd hinv
    rw [greedyGo_succ] at h
    cases hp : greedyPick cards used tot T (k == 0) with
    | none => rw [hp] at h; exact absurd h (by simp)
    | some c =>
      rw [hp] at h
      obtain ⟨hmem, hguard, _⟩ := greedyPick_spec hp
      obtain ⟨idc, hidc⟩ := Option.isSome_iff_exists.mp (hall c hmem)
      have hnot : idc ∉ used := by
        rw [hidc] at hguard
        simpa using hguard
      replace h : greedyGo cards T k (sel ++ [c]) (tot + c.stars)
          (match c.cardId with | some id => id :: used | none => used) = some out := h
      rw [hidc] at h
      replace h : greedyGo cards T k (sel ++ [c]) (tot + c.stars) (idc :: used) =
          some out := h
      have hfresh : (some idc : Option Nat) ∉ sel.map (fun c => c.cardId) := by
        intro hin
        obtain ⟨x, hx, hxid⟩ := List.mem_map.mp hin
        exact hnot (hinv x hx idc hxid)
      refine ih (sel ++ [c]) (tot + c.stars) (idc :: used) out h ?_ ?_
      · rw [List.map_append]
        refine List.Nodup.append hnd (by simp) ?_
        intro y hy hy'
        simp only [List.map_cons, List.map_nil, List.mem_singleton] at hy'
        subst hy'
        rw [hidc] at hy
        exact hfresh hy
      · intro x hx id hid
        rcases List.mem_append.mp hx with hx' | hx'
        · exact List.mem_cons_of_mem _ (hinv x hx' id hid)
        · simp only [List.mem_singleton] at hx'
          subst hx'
          rw [hidc] at hid
          cases hid
          exact List.mem_cons_self _ _

theorem findClosest_le {cards : List Card} {T : Int} {K : Nat} {sel : List Card}
    (hT : 0 ≤ T) (h : findClosestCombination cards T K = some sel) :
    starsSum sel ≤ T :=
  greedyGo_budget cards T K [] 0 [] sel h rfl hT

theorem findClosest_length {cards : List Card} {T : Int} {K : Nat} {sel : List Card}
    (h : findClosestCombination cards T K = some sel) : sel.length = K := by
  have hlen := greedyGo_length cards T K [] 0 [] sel h
  simpa using hlen

/- ### Dispatch structure of `findOptimalCombination` -/

theorem hardCeiling_le {T : Int} {o : Option (List Card)} {sel : List Card}
    (h : hardCeiling T o = some sel) : starsSum sel ≤ T := by
  cases o with
  | none => exact absurd h (by simp [hardCeiling])
  | some s =>
    simp only [hardCeiling] at h
    split at h
    · exact absurd h (by simp)
    case isFalse hns =>
      cases h
      exact not_lt.mp hns

theorem hardCeiling_eq_some {T : Int} {o : Option (List Card)} {sel : List Card}
    (h : hardCeiling T o = some sel) : o = some sel := by
  cases o with
  | none => exact absurd h (by simp [hardCeiling])
  | some s =>
    simp only [hardCeiling] at h
    split at h
    · exact absurd h (by simp)
    · exact h ▸ rfl

theorem relaxedSolve_spec {cards : List Card} {T : Int} {K : Nat} {sel : List Card}
    (h : relaxedSolve cards T K = some sel) :
    ∃ r t, solve cards t K = some r ∧ sel = r.selection ∧ 0 ≤ t ∧
      (t = T - 1 ∨ t = T - 2) := by
  unfold relaxedSolve at h
  split at h
  · exact absurd h (by simp)
  case isFalse h1 =>
    cases h2 : solve cards (T - 1) K with
    | some r =>
      rw [h2] at h
      replace h : some r.selection = some sel := h
      cases h
      exact ⟨r, T - 1, h2, rfl, not_lt.mp h1, Or.inl rfl⟩
    | none =>
      rw [h2] at h
      replace h : (if T - 2 < 0 then none
          else
            match solve cards (T - 2) K with
            | some r => some r.selection
            | none => none) = some sel := h
      split at h
      · exact absurd h (by simp)
      case isFalse h3 =>
        cases h4 : solve cards (T - 2) K with
        | some r =>
          rw [h4] at h
          replace h : some r.selection = some sel := h
          cases h
          exact ⟨r, T - 2, h4, rfl, not_lt.mp h3, Or.inr rfl⟩
        | none => rw [h4] at h; exact absurd h (by simp)

theorem findOptimal_cases {cards : List Card} {T : Int} {K : Nat} {sel : List Card}
    (h : findOptimalCombination cards T K = some sel) :
    ((∃ r, solve cards T K = some r ∧ sel = r.selection) ∨
      relaxedSolve cards T K = some sel) ∧ starsSum sel ≤ T ∨
    findClosestCombination cards T K = some sel := by
  unfold findOptimalCombination at h
  cases hs : (solve cards T K).map DPResult.selection with
  | some s =>
    rw [hs] at h
    replace h : (match hardCeiling T (some s) with
      | some sel => some sel
      | none => findClosestCombination cards T K) = some sel := h
    cases hc : hardCeiling T (some s) with
    | some sel2 =>
      rw [hc] at h
      replace h : some sel2 = some sel := h
      cases h
      left
      refine ⟨?_, hardCeiling_le hc⟩
      have hss : (some s : Option (List Card)) = some sel := hardCeiling_eq_some hc
      cases hss
      obtain ⟨r, hr, hrs⟩ := Option.map_eq_some'.mp hs
      exact Or.inl ⟨r, hr, hrs.symm⟩
    | none =>
      rw [hc] at h
      replace h : findClosestCombination cards T K = some sel := h
      exact Or.inr h
  | none =>
    rw [hs] at h
    replace h : (match hardCeiling T (relaxedSolve cards T K) with
      | some sel => some sel
      | none => findClosestCombination cards T K) = some sel := h
    cases hc : hardCeiling T (relaxedSolve cards T K) with
    | some sel2 =>
      rw [hc] at h
      replace h : some sel2 = some sel := h
      cases h
      left
      exact ⟨Or.inr (hardCeiling_eq_some hc), hardCeiling_le hc⟩
    | none =>
      rw [hc] at h
      replace h : findClosestCombination cards T K = some sel := h
      exact Or.inr h

/- ### C1 -/

/-- C1: for every candidate list, non-negative target cost T and target count
K, any selection returned by the solver (exact DP, relaxed DP, or greedy
fallback) has total cost at most T; and any internal result whose realized
total cost exceeds T is rejected by the hard ceiling check (mapped to
no-solution). -/
theorem c1_solver_never_exceeds_target (cards : List Card) (T : Int) (K : Nat)
    (sel : List Card) (hT : 0 ≤ T) :
    (findOptimalCombination cards T K = some sel → starsSum sel ≤ T) ∧
    (T < starsSum sel → hardCeiling T (some sel) = none) := by
  constructor
  · intro h
    rcases findOptimal_cases h with ⟨_, hle⟩ | hg
    · exact hle
    · exact findClosest_le hT hg
  · intro h
    simp only [hardCeiling, if_pos h]

/-- Witness for C1 at a concrete input. -/
theorem c1_witness :
    (findOptimalCombination [cardX] 3 1 = some [cardX] → starsSum [cardX] ≤ 3) ∧
    ((3 : Int) < starsSum [cardX] → hardCeiling 3 (some [cardX]) = none) :=
  c1_solver_never_exceeds_target [cardX] 3 1 [cardX] (by decide)

/- ### C3 -/

/-- C3: if the exact DP finds no solution at target T, any selection produced
by the relaxation loop (T−1 then T−2, first feasible wins) has total cost
strictly below T — hence never exceeds the original target — and it is the
selection `findOptimalCombination` returns. -/
theorem c3_relaxation_strictly_below (cards : List Card) (T : Int) (K : Nat)
    (sel : List Card) (hexact : solve cards T K = none)
    (hrel : relaxedSolve cards T K = some sel) :
    starsSum sel < T ∧ starsSum sel ≤ T ∧
      findOptimalCombination cards T K = some sel := by
  obtain ⟨r, t, hsolve, rfl, ht0, hT⟩ := relaxedSolve_spec hrel
  have hsum : starsSum r.selection = t := (solve_sound cards t K r hsolve).2.2.1
  have hlt : starsSum r.selection < T := by rcases hT with rfl | rfl <;> omega
  refine ⟨hlt, hlt.le, ?_⟩
  unfold findOptimalCombination
  rw [hexact]
  show (match hardCeiling T (relaxedSolve cards T K) with
    | some sel => some sel
    | none => findClosestCombination cards T K) = some r.selection
  rw [hrel]
  have hhc : hardCeiling T (some r.selection) = some r.selection := by
    simp only [hardCeiling, if_neg (not_lt.mpr hlt.le)]
  rw [hhc]

/-- Witness for C3 at a concrete input: a single card of cost 2 and target 3. -/
theorem c3_witness :
    starsSum [cardX] < 3 ∧ starsSum [cardX] ≤ 3 ∧
      findOptimalCombination [cardX] 3 1 = some [cardX] :=
  c3_relaxation_strictly_below [cardX] 3 1 [cardX]
    (by norm_num [solve, infeasible, sortedStars, cardX, List.insertionSort,
      List.orderedInsert])
    (by norm_num [relaxedSolve, solve, infeasible, sortedStars, cardX,
      List.insertionSort, List.orderedInsert, dpCombine, dpInclude, solve_zero])

/- ### C10 -/

/-- C10: a candidate whose `cardId` is absent is never part of a selection
produced by the DP search (exact or relaxed) because the include branch
requires a truthy `cardId`; a returned selection containing such a card can
only have come from the greedy fallback; and the greedy duplicate-use guard
does not apply to such a card (it can be picked twice). -/
theorem c10_falsy_cardId_never_in_dp :
    (∀ (cards : List Card) (s : Int) (k : Nat) (r : DPResult),
      solve cards s k = some r → ∀ c ∈ r.selection, c.cardId.isSome = true) ∧
    (∀ (cards : List Card) (T : Int) (K : Nat) (sel : List Card),
      findOptimalCombination cards T K = some sel →
      (∃ c ∈ sel, c.cardId = none) →
      findClosestCombination cards T K = some sel) ∧
    findClosestCombination [cardDup] 2 2 = some [cardDup, cardDup] := by
  refine ⟨?_, ?_, ?_⟩
  · intro cards s k r h
    exact (solve_sound cards s k r h).2.2.2.2
  · intro cards T K sel h hnone
    rcases findOptimal_cases h with ⟨hdp, _⟩ | hg
    · exfalso
      obtain ⟨c, hc, hcid⟩ := hnone
      rcases hdp with ⟨r, hr, rfl⟩ | hrel
      · have hsome := (solve_sound _ _ _ _ hr).2.2.2.2 c hc
        rw [hcid] at hsome
        simp at hsome
      · obtain ⟨r, t, hsolve, rfl, _, _⟩ := relaxedSolve_spec hrel
        have hsome := (solve_sound _ _ _ _ hsolve).2.2.2.2 c hc
        rw [hcid] at hsome
        simp at hsome
    · exact hg
  · norm_num [findClosestCombination, greedyGo, greedyPick, pickStep,
      pickStarDiff, cardDup]

/-- Witness for C10: the DP-soundness conjunct applied at a concrete input. -/
theorem c10_witness : cardX.cardId.isSome = true :=
  c10_falsy_cardId_never_in_dp.1 [cardX] 2 1 ⟨[cardX], 5⟩
    (by norm_num [solve, infeasible, sortedStars, cardX, List.insertionSort,
      List.orderedInsert, dpCombine, dpInclude, solve_zero])
    cardX (by simp)

/- ### C2 -/

/-- C2 counterexample: with a falsy-`cardId` candidate in the pool, the DP
returns the id-carrying card of score 5 even though the score-10 candidate
also forms an exact 1-card subset of cost 1 — the returned total score is not
maximal among exact K-subsets of the candidate list. -/
theorem c2_counterexample :
    solve [cardNoId, cardB] 1 1 = some ⟨[cardB], 5⟩ ∧
    [cardNoId].Sublist [cardNoId, cardB] ∧ ([cardNoId] : List Card).length = 1 ∧
    starsSum [cardNoId] = 1 ∧ ¬ scoreSum [cardNoId] ≤ (5 : ℚ) := by
  refine ⟨?_, (List.nil_sublist [cardB]).cons₂ cardNoId, rfl, by decide, ?_⟩
  · norm_num [solve, infeasible, sortedStars, cardNoId, cardB,
      List.insertionSort, List.orderedInsert, dpCombine, dpInclude, solve_zero]
  · norm_num [scoreSum, cardNoId]

/-- C2 (amended): over candidate lists whose cards all carry a `cardId` and
have positive cost, whenever some exact K-subset has cost exactly T, the DP
solver returns a selection of exactly K cards whose total cost equals T and
whose total score is maximal among all exact K-subsets, and
`findOptimalCombination` returns exactly that selection. -/
theorem c2_dp_exact_optimal (cards : List Card) (T : Int) (K : Nat)
    (hid : ∀ c ∈ cards, c.cardId.isSome = true) (hpos : ∀ c ∈ cards, 0 < c.stars)
    (sub : List Card) (hsub : sub.Sublist cards) (hlen : sub.length = K)
    (hsum : starsSum sub = T) :
    ∃ r, solve cards T K = some r ∧ starsSum r.selection = T ∧
      r.selection.length = K ∧ r.selection.Sublist cards ∧
      scoreSum r.selection = r.totalScore ∧
      (∀ t, t.Sublist cards → t.length = K → starsSum t = T →
        scoreSum t ≤ r.totalScore) ∧
      findOptimalCombination cards T K = some r.selection := by
  obtain ⟨r, hr, _⟩ := solve_complete cards sub T K (fun c hc => (hpos c hc).le)
    hsub hlen hsum (fun c hc => hid c (hsub.subset hc))
  obtain ⟨h1, h2, h3, h4, h5⟩ := solve_sound cards T K r hr
  refine ⟨r, hr, h3, h2, h1, h4, ?_, ?_⟩
  · intro t ht htl hts
    obtain ⟨r2, hr2, hle⟩ := solve_complete cards t T K (fun c hc => (hpos c hc).le)
      ht htl hts (fun c hc => hid c (ht.subset hc))
    rw [hr] at hr2
    cases hr2
    exact hle
  · unfold findOptimalCombination
    rw [hr]
    show (match hardCeiling T (some r.selection) with
      | some sel => some sel
      | none => findClosestCombination cards T K) = some r.selection
    have hhc : hardCeiling T (some r.selection) = some r.selection := by
      simp only [hardCeiling, h3, if_neg (lt_irrefl T)]
    rw [hhc]

/-- Witness for C2 (amended) at a concrete input. -/
theorem c2_witness :
    ∃ r, solve [cardB] 1 1 = some r ∧ starsSum r.selection = 1 ∧
      r.selection.length = 1 ∧ r.selection.Sublist [cardB] ∧
      scoreSum r.selection = r.totalScore ∧
      (∀ t, t.Sublist [cardB] → t.length = 1 → starsSum t = 1 →
        scoreSum t ≤ r.totalScore) ∧
      findOptimalCombination [cardB] 1 1 = some r.selection :=
  c2_dp_exact_optimal [cardB] 1 1 (by decide) (by decide) [cardB]
    (List.Sublist.refl _) rfl (by decide)

/- ### C4 -/

/-- C4 counterexample: the solver can return a selection in which the same
candidate appears twice: on a one-card pool whose card has no `cardId`, the
greedy fallback fills both slots with that card, so the returned selection has
a duplicate entity. -/
theorem c4_counterexample :
    findOptimalCombination [cardDup] 2 2 = some [cardDup, cardDup] ∧
    ¬ ([cardDup, cardDup] : List Card).Nodup ∧
    ¬ (([cardDup, cardDup].map (fun c => c.cardId)).Nodup) := by
  refine ⟨?_, by simp, by simp⟩
  norm_num [findOptimalCombination, solve, infeasible, sortedStars, relaxedSolve,
    hardCeiling, findClosestCombination, greedyGo, greedyPick, pickStep,
    pickStarDiff, cardDup, List.insertionSort, List.orderedInsert, dpCombine,
    dpInclude, starsSum]

/-- C4 (amended): every returned selection contains exactly K entities; and
when every candidate carries a `cardId` and the pool's `cardId`s are pairwise
distinct, the returned selection contains no duplicate entity ids. -/
theorem c4_count_and_distinct (cards : List Card) (T : Int) (K : Nat)
    (sel : List Card) (h : findOptimalCombination cards T K = some sel) :
    sel.length = K ∧
    ((∀ c ∈ cards, c.cardId.isSome = true) →
      (cards.map (fun c => c.cardId)).Nodup →
      (sel.map (fun c => c.cardId)).Nodup) := by
  rcases findOptimal_cases h with ⟨hdp, _⟩ | hg
  · have hsel : ∃ r t, solve cards t K = some r ∧ sel = r.selection := by
      rcases hdp with ⟨r, hr, hrs⟩ | hrel
      · exact ⟨r, T, hr, hrs⟩
      · obtain ⟨r, t, hs, hrs, _, _⟩ := relaxedSolve_spec hrel
        exact ⟨r, t, hs, hrs⟩
    obtain ⟨r, t, hs, rfl⟩ := hsel
    obtain ⟨h1, h2, _, _, _⟩ := solve_sound cards t K r hs
    exact ⟨h2, fun _ hnd => List.Nodup.sublist (h1.map _) hnd⟩
  · refine ⟨findClosest_length hg, fun hall _ => ?_⟩
    exact greedyGo_nodup cards T hall K [] 0 [] sel hg (by simp) (by simp)

/-- Witness for C4 (amended) at a concrete input. -/
theorem c4_witness :
    ([cardX] : List Card).length = 1 ∧
      ([cardX].map (fun c => c.cardId)).Nodup := by
  have h := c4_count_and_distinct [cardX] 3 1 [cardX]
    (by norm_num [findOptimalCombination, solve, infeasible, sortedStars,
      relaxedSolve, hardCeiling, cardX, List.insertionSort, List.orderedInsert,
      dpCombine, dpInclude, solve_zero, starsSum])
  exact ⟨h.1, h.2 (by decide) (by decide)⟩

/- ### C5 -/

/-- C5: when the configuration supplies an override for a card's group key,
the card is always kept by the scoring map and its expected score is the flat
override — independent of the historical data — except for the special key
0XMAKESY, whose score equals the override only at cost exactly 1 and is 0 at
every other cost, regardless of the override value. -/
theorem c5_override_policy (config : Config) (hist : List (String × List ℚ))
    (card : RawCard) (v : ℚ)
    (hov : config.scoreOverrides.lookup (lookupKey card) = some v) :
    (∃ e, scoreEntry config hist card = some e) ∧
    (∀ e, scoreEntry config hist card = some e →
      e.expectedScore =
        if lookupKey card = "0XMAKESY" ∧ card.stars ≠ 1 then 0 else v) ∧
    (lookupKey card ≠ "0XMAKESY" →
      ∀ e, scoreEntry config hist card = some e → e.expectedScore = v) ∧
    (lookupKey card = "0XMAKESY" → card.stars = 1 →
      ∀ e, scoreEntry config hist card = some e → e.expectedScore = v) ∧
    (lookupKey card = "0XMAKESY" → card.stars ≠ 1 →
      ∀ e, scoreEntry config hist card = some e → e.expectedScore = 0) ∧
    (∀ hist2, scoreEntry config hist card = scoreEntry config hist2 card) := by
  have heff : ∀ h2 : List (String × List ℚ), effectiveScore config h2 card =
      if lookupKey card = "0XMAKESY" ∧ card.stars ≠ 1 then 0 else v := by
    intro h2
    unfold effectiveScore
    rw [hov]
  have hentry : ∀ h2 : List (String × List ℚ), scoreEntry config h2 card =
      some ⟨card, effectiveScore config h2 card,
        if 0 < card.stars then effectiveScore config h2 card / (card.stars : ℚ)
        else 0⟩ := by
    intro h2
    unfold scoreEntry
    rw [hov]
  refine ⟨⟨_, hentry hist⟩, ?_, ?_, ?_, ?_, ?_⟩
  · intro e he
    rw [hentry hist] at he
    cases he
    exact heff hist
  · intro hne e he
    rw [hentry hist] at he
    cases he
    rw [heff hist, if_neg (fun hand => hne hand.1)]
  · intro hkey hone e he
    rw [hentry hist] at he
    cases he
    rw [heff hist, if_neg (fun hand => hand.2 hone)]
  · intro hkey hne e he
    rw [hentry hist] at he
    cases he
    rw [heff hist, if_pos ⟨hkey, hne⟩]
  · intro hist2
    rw [hentry hist, hentry hist2, heff hist, heff hist2]

/-- Witness for C5: a 2-star 0XMAKESY card with an override of 300 scores 0. -/
theorem c5_witness :
    ∃ e, scoreEntry cfgMakesy [] rawMakesy = some e ∧ e.expectedScore = 0 := by
  have h := c5_override_policy cfgMakesy [] rawMakesy 300 (by decide)
  obtain ⟨e, he⟩ := h.1
  exact ⟨e, he, h.2.2.2.2.1 (by decide) (by decide) e he⟩

/- ### C9 -/

theorem scoreEntry_eq_some {config : Config} {hist : List (String × List ℚ)}
    {card : RawCard} {e : Card} (h : scoreEntry config hist card = some e) :
    e.toRawCard = card ∧ e.expectedScore = effectiveScore config hist card := by
  unfold scoreEntry at h
  cases hov : config.scoreOverrides.lookup (lookupKey card) with
  | some v =>
    rw [hov] at h
    replace h : some (⟨card, effectiveScore config hist card,
      if 0 < card.stars then effectiveScore config hist card / (card.stars : ℚ)
      else 0⟩ : Card) = some e := h
    cases h
    exact ⟨rfl, rfl⟩
  | none =>
    rw [hov] at h
    replace h : (if card.stars = 0 then none
        else some (⟨card, effectiveScore config hist card,
          effectiveScore config hist card / (card.stars : ℚ)⟩ : Card)) = some e := h
    split at h
    · exact absurd h (by simp)
    · replace h : some (⟨card, effectiveScore config hist card,
        effectiveScore config hist card / (card.stars : ℚ)⟩ : Card) = some e := h
      cases h
      exact ⟨rfl, rfl⟩

theorem mem_scoredCards {cards : List RawCard} {hist : List (String × List ℚ)}
    {config : Config} {x : Card} (h : x ∈ scoredCards cards hist config) :
    0 ≤ x.expectedScore ∧ 0 < x.stars := by
  unfold scoredCards at h
  obtain ⟨_, hp⟩ := List.mem_filter.mp h
  simp only [Bool.and_eq_true, decide_eq_true_eq] at hp
  exact hp

theorem mem_pruneByBucket {l : List Card} {cap : Nat} {x : Card}
    (h : x ∈ pruneByBucket l cap) : x ∈ l := by
  unfold pruneByBucket bucketMerge at h
  rw [List.mem_insertionSort] at h
  obtain ⟨bl, hbl, hx⟩ := List.mem_flatten.mp h
  obtain ⟨s, hs, rfl⟩ := List.mem_map.mp hbl
  exact (List.filter_sublist l).subset (List.take_subset _ _ hx)

/-- C9: the deck-building core fails soft: an empty pool yields `null`; a pool
in which every entity is malformed (cost ≤ 0) or has a negative effective
score yields `null`; and entities with cost ≤ 0 never reach the solver — every
candidate handed to it has positive cost. -/
theorem c9_empty_and_malformed (cards : List RawCard)
    (hist : List (String × List ℚ)) (config : Config) :
    findBestDeck [] hist config = none ∧
    ((∀ c ∈ cards, c.stars ≤ 0 ∨ effectiveScore config hist c < 0) →
      findBestDeck cards hist config = none) ∧
    (∀ x ∈ deckCandidates cards hist config, 0 < x.stars) := by
  refine ⟨?_, ?_, ?_⟩
  · simp [findBestDeck, scoredCards]
  · intro hbad
    have hempty : scoredCards cards hist config = [] := by
      unfold scoredCards
      rw [List.filter_eq_nil_iff]
      intro e he
      rw [List.reduceOption_mem_iff, List.mem_map] at he
      obtain ⟨c, hc, hce⟩ := he
      obtain ⟨hraw, hscore⟩ := scoreEntry_eq_some hce
      rcases hbad c hc with hs | hs
      · have hstars : e.stars ≤ 0 := by rw [← hraw] at hs; exact hs
        simp only [Bool.and_eq_true, decide_eq_true_eq, not_and]
        intro _
        omega
      · have hneg : e.expectedScore < 0 := by rw [hscore]; exact hs
        simp only [Bool.and_eq_true, decide_eq_true_eq, not_and]
        intro hge
        exact absurd hge (not_le.mpr hneg)
    rw [findBestDeck, hempty]
    simp
  · intro x hx
    exact (mem_scoredCards ((List.mem_insertionSort _).mp
      (mem_pruneByBucket hx))).2

/-- Witness for C9: the empty pool and an all-malformed pool both yield null. -/
theorem c9_witness :
    findBestDeck [] [] cfgPlain = none ∧
      findBestDeck [rawBad] [] cfgPlain = none := by
  have h := c9_empty_and_malformed [rawBad] [] cfgPlain
  exact ⟨(c9_empty_and_malformed [] [] cfgPlain).1,
    h.2.1 (fun c hc => by
      simp only [List.mem_singleton] at hc
      subst hc
      exact Or.inl (by decide))⟩

/- ### C6: structure of the exponential smoothing -/

theorem exponentialSmoothing_append (l : List ℚ) (hl : l ≠ []) (v alpha : ℚ) :
    exponentialSmoothing (l ++ [v]) alpha =
      alpha * v + (1 - alpha) * exponentialSmoothing l alpha := by
  cases l with
  | nil => exact absurd rfl hl
  | cons x ys => simp [exponentialSmoothing, List.foldl_append]

theorem basis_succ (n i : Nat) :
    basis (n + 1) i = basis n i ++ [if n = i then 1 else 0] := by
  simp [basis, List.range_succ]

theorem basis_length (n i : Nat) : (basis n i).length = n := by
  simp [basis]

theorem basis_ne_nil {n i : Nat} (h : 0 < n) : basis n i ≠ [] := by
  intro hcon
  have hlen := basis_length n i
  rw [hcon] at hlen
  simp at hlen
  omega

theorem basis_of_le (n i : Nat) (h : n ≤ i) : basis n i = List.replicate n 0 := by
  have h1 : basis n i = List.replicate (basis n i).length 0 := by
    apply List.eq_replicate_of_mem
    intro b hb
    unfold basis at hb
    obtain ⟨j, hj, rfl⟩ := List.mem_map.mp hb
    rw [List.mem_range] at hj
    rw [if_neg (by omega)]
  rw [basis_length] at h1
  exact h1

theorem foldl_smooth_replicate_zero (alpha : ℚ) :
    ∀ m : Nat, (List.replicate m 0).foldl
      (fun smoothed v => alpha * v + (1 - alpha) * smoothed) 0 = 0 := by
  intro m
  induction m with
  | zero => rfl
  | succ m ih =>
    rw [List.replicate_succ, List.foldl_cons]
    have hz : alpha * 0 + (1 - alpha) * 0 = 0 := by ring
    rw [hz, ih]

theorem exponentialSmoothing_replicate_zero (alpha : ℚ) (n : Nat) :
    exponentialSmoothing (List.replicate n 0) alpha = 0 := by
  cases n with
  | zero => rfl
  | succ n =>
    rw [List.replicate_succ]
    show (List.replicate n 0).foldl
      (fun smoothed v => alpha * v + (1 - alpha) * smoothed) 0 = 0
    exact foldl_smooth_replicate_zero alpha n

theorem smoothCoeff_formula : ∀ (n i : Nat), i < n →
    smoothCoeff n i =
      if i = 0 then (7/10 : ℚ) ^ (n - 1) else (3/10 : ℚ) * (7/10) ^ (n - 1 - i) := by
  intro n
  induction n with
  | zero => intro i hi; omega
  | succ n ih =>
    intro i hi
    rcases Nat.lt_succ_iff_lt_or_eq.mp hi with hi2 | hieq
    · have hne : ¬ (n = i) := by omega
      have hbasis : basis (n + 1) i = basis n i ++ [0] := by
        rw [basis_succ, if_neg hne]
      have hrec : smoothCoeff (n + 1) i =
          (3/10) * 0 + (1 - 3/10) * smoothCoeff n i := by
        unfold smoothCoeff
        rw [hbasis, exponentialSmoothing_append _ (basis_ne_nil (by omega)) _ _]
      rw [hrec, ih i hi2]
      by_cases h0 : i = 0
      · subst h0
        rw [if_pos rfl, if_pos rfl]
        have h1 : n + 1 - 1 = (n - 1) + 1 := by omega
        rw [h1, pow_succ]
        ring
      · rw [if_neg h0, if_neg h0]
        have h1 : n + 1 - 1 - i = (n - 1 - i) + 1 := by omega
        rw [h1, pow_succ]
        ring
    · subst hieq
      by_cases h0 : i = 0
      · subst h0
        rw [if_pos rfl]
        show exponentialSmoothing (basis 1 0) (3/10) = (7/10 : ℚ) ^ (1 - 1)
        have hb : basis 1 0 = [1] := by
          simp [basis, List.range_succ]
        rw [hb]
        norm_num [exponentialSmoothing]
      · rw [if_neg h0]
        have hbasis : basis (i + 1) i = basis i i ++ [1] := by
          rw [basis_succ, if_pos rfl]
        have hz : exponentialSmoothing (basis i i) (3/10) = 0 := by
          rw [basis_of_le i i le_rfl]
          exact exponentialSmoothing_replicate_zero _ i
        unfold smoothCoeff
        rw [hbasis, exponentialSmoothing_append _ (basis_ne_nil (by omega)) _ _, hz]
        have h1 : i + 1 - 1 - i = 0 := by omega
        rw [h1, pow_zero]
        ring

/-- C6 counterexample: in a series of length 3 (with α = 0.3) the middle
observation's coefficient (0.21) is smaller than the oldest observation's
coefficient (0.3), so an older observation's coefficient is NOT smaller than
every more recent observation's coefficient. -/
theorem c6_counterexample : ¬ (smoothCoeff 3 2 < smoothCoeff 3 1) := by
  rw [smoothCoeff_formula 3 2 (by omega), smoothCoeff_formula 3 1 (by omega)]
  norm_num

/-- C6 (amended): `exponentialSmoothing` with α = 0.3 starts from the most
recent observation (S₁ = X₁) and folds Sₜ = α·Xₜ + (1−α)·Sₜ₋₁ toward the
oldest observation; consequently the most recent observation's coefficient is
(1−α)^(n−1), every other observation at index t ≥ 1 has coefficient
α·(1−α)^(n−1−t), and among the observations other than the most recent one an
OLDER observation has a strictly LARGER coefficient (the opposite of decaying
with age). -/
theorem c6_smoothing_recency :
    (∀ x : ℚ, exponentialSmoothing [x] (3/10) = x) ∧
    (exponentialSmoothing [10, 20] (3/10) = 13) ∧
    (∀ (l : List ℚ) (v : ℚ), l ≠ [] →
      exponentialSmoothing (l ++ [v]) (3/10) =
        (3/10) * v + (1 - 3/10) * exponentialSmoothing l (3/10)) ∧
    (∀ n i, i < n → smoothCoeff n i =
      if i = 0 then (7/10 : ℚ) ^ (n - 1) else (3/10 : ℚ) * (7/10) ^ (n - 1 - i)) ∧
    (∀ n i j, 1 ≤ i → i < j → j < n → smoothCoeff n i < smoothCoeff n j) := by
  refine ⟨fun x => rfl, by norm_num [exponentialSmoothing], ?_, smoothCoeff_formula, ?_⟩
  · intro l v hl
    exact exponentialSmoothing_append l hl v (3/10)
  · intro n i j h1 hij hjn
    rw [smoothCoeff_formula n i (by omega), smoothCoeff_formula n j (by omega)]
    rw [if_neg (by omega), if_neg (by omega)]
    have hlt : n - 1 - j < n - 1 - i := by omega
    have hpow : (7/10 : ℚ) ^ (n - 1 - i) < (7/10 : ℚ) ^ (n - 1 - j) :=
      pow_lt_pow_right_of_lt_one₀ (by norm_num) (by norm_num) hlt
    have hc : (0 : ℚ) < 3/10 := by norm_num
    exact mul_lt_mul_of_pos_left hpow hc

/-- Witness for C6 (amended) at concrete inputs. -/
theorem c6_witness :
    exponentialSmoothing [(5 : ℚ)] (3/10) = 5 ∧
      smoothCoeff 4 1 < smoothCoeff 4 2 :=
  ⟨c6_smoothing_recency.1 5,
    c6_smoothing_recency.2.2.2.2 4 1 2 (by omega) (by omega) (by omega)⟩

/- ### C7: the outlier exclusion for numToExclude = 1 -/

theorem sorted_take_sum :
    ∀ (s : List ℚ), s.Sorted (· ≤ ·) → ∀ m : ℚ, m ∈ s → (∀ x ∈ s, x ≤ m) →
      (s.take (s.length - 1)).sum = s.sum - m := by
  intro s
  induction s with
  | nil => intro _ m hm; simp at hm
  | cons a s ih =>
    intro hs m hm hmax
    cases s with
    | nil =>
      simp only [List.mem_singleton] at hm
      subst hm
      simp
    | cons b t =>
      have hm2 : m ∈ b :: t := by
        rcases List.mem_cons.mp hm with hma | h2
        · have hab : m ≤ b := by
            rw [hma]
            exact List.rel_of_sorted_cons hs b (by simp)
          have hba : b ≤ m := hmax b (by simp)
          have hbm : b = m := le_antisymm hba hab
          rw [← hbm]
          exact List.mem_cons_self b t
        · exact h2
      have hmax2 : ∀ x ∈ b :: t, x ≤ m := fun x hx => hmax x (List.mem_cons_of_mem _ hx)
      have hstep : (a :: b :: t).take ((a :: b :: t).length - 1) =
          a :: ((b :: t).take ((b :: t).length - 1)) := by
        have h1 : (a :: b :: t).length - 1 = t.length + 1 := by simp
        have h2 : (b :: t).length - 1 = t.length := by simp
        rw [h1, h2, List.take_succ_cons]
      rw [hstep]
      simp only [List.sum_cons]
      rw [ih hs.of_cons m hm2 hmax2]
      simp only [List.sum_cons]
      ring

/-- C7: with numToExclude = 1 on more than one observation, the outlier
exclusion sorts ascending, trims floor(1/2) = 0 values from the low end and 1
from the high end (exactly the maximum), and returns the mean of the rest —
the sum minus the maximum divided by (n − 1); with at most one observation it
falls back to the plain mean; and the recent6exclude1 algorithm applies it to
the first 6 observations. -/
theorem c7_outlier_exclusion :
    (∀ (l : List ℚ) (m : ℚ), 1 < l.length → m ∈ l → (∀ x ∈ l, x ≤ m) →
      averageExcludingOutliers l 1 = (l.sum - m) / ((l.length : ℚ) - 1)) ∧
    (∀ l : List ℚ, l.length ≤ 1 → averageExcludingOutliers l 1 = averageScore l) ∧
    (∀ (hist : List (String × List ℚ)) (name : String) (scores : List ℚ),
      hist.lookup (upper name) = some scores → scores.length ≠ 0 →
      calculateScore hist name "recent6exclude1" =
        averageExcludingOutliers (scores.take 6) 1) := by
  refine ⟨?_, ?_, ?_⟩
  · intro l m hlen hm hmax
    have hperm := List.perm_insertionSort (· ≤ ·) l
    have hsorted := List.sorted_insertionSort (· ≤ ·) l
    have hslen : (List.insertionSort (· ≤ ·) l).length = l.length := hperm.length_eq
    have hm2 : m ∈ List.insertionSort (· ≤ ·) l := hperm.symm.subset hm
    have hmax2 : ∀ x ∈ List.insertionSort (· ≤ ·) l, x ≤ m :=
      fun x hx => hmax x (hperm.subset hx)
    have hsum := sorted_take_sum _ hsorted m hm2 hmax2
    have hsum2 : ((List.insertionSort (· ≤ ·) l).take (l.length - 1)).sum =
        l.sum - m := by
      rw [← hslen, hsum, hperm.sum_eq]
    have hltake : ((List.insertionSort (· ≤ ·) l).take (l.length - 1)).length =
        l.length - 1 := by
      rw [List.length_take, hslen]
      omega
    unfold averageExcludingOutliers
    rw [if_neg (by omega)]
    norm_num [List.drop_zero]
    unfold averageScore
    rw [if_neg (by rw [hltake]; omega)]
    rw [hsum2, hltake, Nat.cast_sub (by omega), Nat.cast_one]
  · intro l hl
    unfold averageExcludingOutliers
    rw [if_pos hl]
  · intro hist name scores hlook hne
    unfold calculateScore
    rw [hlook]
    show (if scores.length = 0 then (0 : ℚ)
      else averageExcludingOutliers (scores.take 6) 1) =
        averageExcludingOutliers (scores.take 6) 1
    rw [if_neg hne]

/-- Witness for C7 at a concrete input: the mean of six scores after dropping
the single highest. -/
theorem c7_witness :
    averageExcludingOutliers [1, 2, 3, 4, 5, 100] 1 =
      (([1, 2, 3, 4, 5, 100] : List ℚ).sum - 100) /
        ((([1, 2, 3, 4, 5, 100] : List ℚ).length : ℚ) - 1) :=
  c7_outlier_exclusion.1 [1, 2, 3, 4, 5, 100] 100 (by decide) (by decide)
    (by decide)

/- ### C8: the rank-and-prune step -/

theorem bucketKeys_aux_mem (l : List Card) :
    ∀ (init : List Int) (x : Int),
      (x ∈ l.foldl
        (fun keys c => if c.stars ∈ keys then keys else keys ++ [c.stars]) init) ↔
        (x ∈ init ∨ ∃ c ∈ l, c.stars = x) := by
  induction l with
  | nil => intro init x; simp
  | cons a l ih =>
    intro init x
    rw [List.foldl_cons]
    by_cases h : a.stars ∈ init
    · rw [if_pos h, ih]
      constructor
      · rintro (h1 | ⟨c, hc, hcs⟩)
        · exact Or.inl h1
        · exact Or.inr ⟨c, List.mem_cons_of_mem _ hc, hcs⟩
      · rintro (h1 | ⟨c, hc, hcs⟩)
        · exact Or.inl h1
        · rcases List.mem_cons.mp hc with rfl | hc2
          · exact Or.inl (hcs ▸ h)
          · exact Or.inr ⟨c, hc2, hcs⟩
    · rw [if_neg h, ih]
      simp only [List.mem_append, List.mem_singleton]
      constructor
      · rintro ((h1 | h1) | ⟨c, hc, hcs⟩)
        · exact Or.inl h1
        · exact Or.inr ⟨a, List.mem_cons_self _ _, h1.symm⟩
        · exact Or.inr ⟨c, List.mem_cons_of_mem _ hc, hcs⟩
      · rintro (h1 | ⟨c, hc, hcs⟩)
        · exact Or.inl (Or.inl h1)
        · rcases List.mem_cons.mp hc with rfl | hc2
          · exact Or.inl (Or.inr hcs.symm)
          · exact Or.inr ⟨c, hc2, hcs⟩

theorem mem_bucketKeys {l : List Card} {x : Int} :
    x ∈ bucketKeys l ↔ ∃ c ∈ l, c.stars = x := by
  unfold bucketKeys
  rw [bucketKeys_aux_mem]
  simp

theorem bucketKeys_aux_nodup (l : List Card) :
    ∀ init : List Int, init.Nodup →
      (l.foldl
        (fun keys c => if c.stars ∈ keys then keys else keys ++ [c.stars]) init).Nodup := by
  induction l with
  | nil => intro init h; exact h
  | cons a l ih =>
    intro init h
    rw [List.foldl_cons]
    by_cases hmem : a.stars ∈ init
    · rw [if_pos hmem]
      exact ih init h
    · rw [if_neg hmem]
      refine ih _ (List.Nodup.append h (by simp) ?_)
      intro y hy hy2
      simp only [List.mem_singleton] at hy2
      subst hy2
      exact hmem hy

theorem bucketKeys_nodup (l : List Card) : (bucketKeys l).Nodup :=
  bucketKeys_aux_nodup l [] List.nodup_nil

theorem sum_map_eq_single {keys : List Int} (hnd : keys.Nodup) {a : Int}
    (ha : a ∈ keys) (g : Int → Nat) (hz : ∀ s ∈ keys, s ≠ a → g s = 0) :
    (keys.map g).sum = g a := by
  induction keys with
  | nil => simp at ha
  | cons k ks ih =>
    simp only [List.map_cons, List.sum_cons]
    rcases List.mem_cons.mp ha with rfl | ha2
    · have hzs : ∀ x ∈ ks.map g, x = 0 := by
        intro x hx
        obtain ⟨s, hs, rfl⟩ := List.mem_map.mp hx
        refine hz s (List.mem_cons_of_mem _ hs) ?_
        intro he
        exact (List.nodup_cons.mp hnd).1 (he ▸ hs)
      rw [List.sum_eq_zero hzs]
      omega
    · have hk0 : g k = 0 := by
        refine hz k (List.mem_cons_self _ _) ?_
        intro he
        refine (List.nodup_cons.mp hnd).1 ?_
        rw [he]
        exact ha2
      rw [hk0, ih (List.nodup_cons.mp hnd).2 ha2
        (fun s hs hne => hz s (List.mem_cons_of_mem _ hs) hne)]
      omega

theorem count_take_filter_ne {l : List Card} {cap : Nat} {s : Int} {x : Card}
    (h : x.stars ≠ s) :
    ((l.filter (fun c => c.stars == s)).take cap).count x = 0 := by
  rw [List.count_eq_zero]
  intro hmem
  have hf := (List.mem_filter.mp (List.take_subset _ _ hmem)).2
  rw [beq_iff_eq] at hf
  exact h hf

theorem count_take_filter_le (l : List Card) (cap : Nat) (s : Int) (x : Card) :
    ((l.filter (fun c => c.stars == s)).take cap).count x ≤ l.count x :=
  ((List.take_sublist _ _).trans (List.filter_sublist _)).count_le _

theorem count_bucketMerge_le (l : List Card) (cap : Nat) (x : Card) :
    (bucketMerge l cap).count x ≤ l.count x := by
  unfold bucketMerge
  rw [List.count_flatten, List.map_map]
  simp only [Function.comp_def]
  by_cases hx : x.stars ∈ bucketKeys l
  · rw [sum_map_eq_single (bucketKeys_nodup l) hx _
      (fun s hs hne => count_take_filter_ne (Ne.symm hne))]
    exact count_take_filter_le l cap x.stars x
  · have hall : ∀ y ∈ (bucketKeys l).map
        (fun s => ((l.filter (fun c => c.stars == s)).take cap).count x), y = 0 := by
      intro y hy
      obtain ⟨s, hs, rfl⟩ := List.mem_map.mp hy
      apply count_take_filter_ne
      intro he
      exact hx (he ▸ hs)
    rw [List.sum_eq_zero hall]
    exact Nat.zero_le _

theorem bucketMerge_perm (l : List Card) (cap : Nat)
    (hshort : ∀ s : Int, (l.filter (fun c => c.stars == s)).length ≤ cap) :
    (bucketMerge l cap).Perm l := by
  rw [List.perm_iff_count]
  intro x
  unfold bucketMerge
  rw [List.count_flatten, List.map_map]
  simp only [Function.comp_def]
  by_cases hx : x ∈ l
  · have hkey : x.stars ∈ bucketKeys l := mem_bucketKeys.mpr ⟨x, hx, rfl⟩
    rw [sum_map_eq_single (bucketKeys_nodup l) hkey _
      (fun s hs hne => count_take_filter_ne (Ne.symm hne))]
    rw [List.take_of_length_le (hshort x.stars)]
    exact List.count_filter (by simp)
  · have h0 : l.count x = 0 := List.count_eq_zero.mpr hx
    rw [h0]
    apply List.sum_eq_zero
    intro y hy
    obtain ⟨s, hs, rfl⟩ := List.mem_map.mp hy
    have hle := count_take_filter_le l cap s x
    omega

theorem countP_take_filter_ne (l : List Card) (cap : Nat) {s s2 : Int}
    (h : s2 ≠ s) :
    ((l.filter (fun c => c.stars == s2)).take cap).countP
      (fun c => c.stars == s) = 0 := by
  rw [List.countP_eq_zero]
  intro c hc
  have hf := (List.mem_filter.mp (List.take_subset _ _ hc)).2
  rw [beq_iff_eq] at hf
  simp only [beq_iff_eq]
  intro he
  rw [hf] at he
  exact h he

theorem countP_bucketMerge_le (l : List Card) (cap : Nat) (s : Int) :
    (bucketMerge l cap).countP (fun c => c.stars == s) ≤ cap := by
  unfold bucketMerge
  rw [List.countP_flatten, List.map_map]
  simp only [Function.comp_def]
  by_cases hx : s ∈ bucketKeys l
  · rw [sum_map_eq_single (bucketKeys_nodup l) hx _
      (fun s2 hs2 hne => countP_take_filter_ne l cap hne)]
    exact le_trans (List.countP_le_length _) (List.length_take_le _ _)
  · rw [List.sum_eq_zero ?_]
    · exact Nat.zero_le _
    · intro y hy
      obtain ⟨s2, hs2, rfl⟩ := List.mem_map.mp hy
      by_cases he : s2 = s
      · exact absurd (he ▸ hs2) hx
      · exact countP_take_filter_ne l cap he

theorem eq_of_perm_sorted_cardGE {l₁ l₂ : List Card} (hp : l₁.Perm l₂)
    (h₁ : l₁.Sorted cardGE) (h₂ : l₂.Sorted cardGE)
    (hn : (l₂.map (fun c => c.expectedScorePerStar)).Nodup) : l₁ = l₂ := by
  have hn₁ : (l₁.map (fun c => c.expectedScorePerStar)).Nodup :=
    ((hp.map _).nodup_iff).mpr hn
  haveI : IsAntisymm Card
      (fun a b => b.expectedScorePerStar < a.expectedScorePerStar) :=
    ⟨fun a b hab hba => absurd hab (not_lt.mpr hba.le)⟩
  have hs₂ : l₂.Sorted
      (fun a b => b.expectedScorePerStar < a.expectedScorePerStar) :=
    (List.Pairwise.and h₂ (List.pairwise_map.mp hn)).imp
      (fun hab => lt_of_le_of_ne hab.1 (Ne.symm hab.2))
  have hs₁ : l₁.Sorted
      (fun a b => b.expectedScorePerStar < a.expectedScorePerStar) :=
    (List.Pairwise.and h₁ (List.pairwise_map.mp hn₁)).imp
      (fun hab => lt_of_le_of_ne hab.1 (Ne.symm hab.2))
  exact List.eq_of_perm_of_sorted hp hs₁ hs₂

/-- C8 counterexample: on a pool with an efficiency tie across different star
buckets, applying the rank-and-prune step to its own output changes the order
of the tied cards (the bucket-merge reorders ties before the stable re-sort),
so the step is not idempotent. -/
theorem c8_counterexample :
    pruneByBucket (pruneByBucket [cardU, cardP, cardV] 5) 5 ≠
      pruneByBucket [cardU, cardP, cardV] 5 := by
  decide

/-- C8 (amended): the rank-and-prune step is idempotent for every bucket cap
on every pool whose expected-score-per-star efficiencies are pairwise distinct
(no efficiency ties); with ties the bucket merge can reorder tied entities and
idempotence fails. -/
theorem c8_prune_idempotent_distinct (l : List Card) (cap : Nat)
    (hn : (l.map (fun c => c.expectedScorePerStar)).Nodup) :
    pruneByBucket (pruneByBucket l cap) cap = pruneByBucket l cap := by
  have hperm_out : (pruneByBucket l cap).Perm (bucketMerge l cap) :=
    List.perm_insertionSort _ _
  have hsorted_out : (pruneByBucket l cap).Sorted cardGE :=
    List.sorted_insertionSort _ _
  have hsub : (bucketMerge l cap).Subperm l :=
    List.subperm_ext_iff.mpr (fun x _ => count_bucketMerge_le l cap x)
  have hnmerge :
      ((bucketMerge l cap).map (fun c => c.expectedScorePerStar)).Nodup := by
    obtain ⟨w, hw1, hw2⟩ := hsub
    have hw : (w.map (fun c => c.expectedScorePerStar)).Nodup :=
      List.Nodup.sublist (hw2.map _) hn
    exact ((hw1.map _).nodup_iff).mp hw
  have hnout :
      ((pruneByBucket l cap).map (fun c => c.expectedScorePerStar)).Nodup :=
    ((hperm_out.map _).nodup_iff).mpr hnmerge
  have hshort : ∀ s : Int,
      ((pruneByBucket l cap).filter (fun c => c.stars == s)).length ≤ cap := by
    intro s
    rw [← List.countP_eq_length_filter]
    rw [hperm_out.countP_eq]
    exact countP_bucketMerge_le l cap s
  have hmergeout :
      (bucketMerge (pruneByBucket l cap) cap).Perm (pruneByBucket l cap) :=
    bucketMerge_perm _ cap hshort
  show List.insertionSort cardGE (bucketMerge (pruneByBucket l cap) cap) =
    pruneByBucket l cap
  exact eq_of_perm_sorted_cardGE
    ((List.perm_insertionSort _ _).trans hmergeout)
    (List.sorted_insertionSort _ _) hsorted_out hnout

/-- Witness for C8 (amended) on a concrete tie-free pool. -/
theorem c8_witness :
    pruneByBucket (pruneByBucket [cardP, cardU] 5) 5 =
      pruneByBucket [cardP, cardU] 5 :=
  c8_prune_idempotent_distinct [cardP, cardU] 5 (by decide)

end FantasyDeck
